import Mathlib

/-!
Verification of translate/data_utils.py: vocabulary loading, tokenization,
filename resolution, BLEU-output parsing an embedding alignment.
Python functions are shallowly embedded as Lean functions; the filesystem is
an explicit oracle mapping a path to the optional list of lines of the file
at that path, and exceptions are an explicit error type.
-/

set_option maxHeartbeats 1000000

namespace DataUtils

/-- The Python whitespace predicate used by str.split and str.strip. -/
def pyIsSpace (c : Char) : Bool :=
  c = ' ' || c = '\t' || c = '\n' || c = '\r' || c = '\x0b' || c = '\x0c'

/-- Python str.strip with no argument: drop leading and trailing whitespace. -/
def pyStrip (s : String) : String :=
  String.mk (((s.toList.dropWhile pyIsSpace).reverse.dropWhile pyIsSpace).reverse)

/-- Helper for pySplit: walk the characters, accumulating the current token. -/
def pySplitAux : List Char → List Char → List String
  | [], acc => if acc.isEmpty then [] else [String.mk acc.reverse]
  | c :: cs, acc =>
    if pyIsSpace c then
      if acc.isEmpty then pySplitAux cs []
      else String.mk acc.reverse :: pySplitAux cs []
    else pySplitAux cs (c :: acc)

/-- Python str.split with no argument: split on runs of whitespace, with no
empty pieces in the result. -/
def pySplit (s : String) : List String :=
  pySplitAux s.toList []

/-- A Python dict with string keys, modelled as an ordered association list
whose keys are pairwise distinct. -/
abbrev Dict (β : Type) := List (String × β)

/-- Python dict assignment d[k] = v: overwrite the stored value in place when
the key is already present (keys of a Python dict are unique, so replacing
the first binding is replacing the only one), append a fresh binding at the
end otherwise. -/
def dictInsert {β : Type} : Dict β → String → β → Dict β
  | [], k, v => [(k, v)]
  | (k2, v2) :: rest, k, v =>
    if k2 = k then (k2, v) :: rest
    else (k2, v2) :: dictInsert rest k v

/-- Python dict(pairs): insert the pairs left to right, so that a later pair
with the same key overwrites an earlier one. -/
def dictOfList {β : Type} (ps : List (String × β)) : Dict β :=
  ps.foldl (fun d p => dictInsert d p.1 p.2) []

/-- Python dict lookup d.get(k). -/
def dictGet {β : Type} : Dict β → String → Option β
  | [], _ => none
  | (k2, v) :: rest, k => if k = k2 then some v else dictGet rest k

/-- Decidable equality of Except values, for evaluating the embedded
functions on concrete inputs. -/
instance {ε α : Type} [DecidableEq ε] [DecidableEq α] : DecidableEq (Except ε α) :=
  fun x y =>
    match x, y with
    | .ok a, .ok b =>
      if h : a = b then isTrue (by rw [h]) else isFalse (by intro hh; cases hh; exact h rfl)
    | .error a, .error b =>
      if h : a = b then isTrue (by rw [h]) else isFalse (by intro hh; cases hh; exact h rfl)
    | .ok _, .error _ => isFalse (by intro hh; cases hh)
    | .error _, .ok _ => isFalse (by intro hh; cases hh)

/-- Python exceptions raised by the embedded functions. -/
inductive PyErr where
  | valueError (msg : String) (arg : Option String)
  | assertionError (msg : String)
  | indexError
  | stopIteration
deriving DecidableEq

/-- Reserved id of the padding symbol. -/
def PAD_ID : Nat := 0

/-- Reserved id of the sequence-start symbol. -/
def GO_ID : Nat := 1

/-- Reserved id of the sequence-end symbol. -/
def EOS_ID : Nat := 2

/-- Reserved id of the unknown-token symbol. -/
def UNK_ID : Nat := 3

/-- initialize_vocabulary from data_utils.py. The filesystem oracle fs maps a
path to the optional list of raw lines of the file stored there; a missing
file raises ValueError with the format string and the offending path as the
exception arguments. -/
def initialize_vocabulary (fs : String → Option (List String))
    (vocabulary_path : String) :
    Except PyErr (Dict Nat × List String) :=
  match fs vocabulary_path with
  | some fileLines =>
    let rev_vocab := fileLines.map pyStrip
    let vocab := dictOfList (rev_vocab.enum.map (fun p => (p.2, p.1)))
    .ok (vocab, rev_vocab)
  | none => .error (.valueError "Vocabulary file %s not found." (some vocabulary_path))

/-- sentence_to_token_ids from data_utils.py: split the sentence on
whitespace and look each token up in the vocabulary, defaulting to UNK_ID. -/
def sentence_to_token_ids (sentence : String) (vocabulary : Dict Nat) : List Nat :=
  (pySplit sentence).map (fun w => (dictGet vocabulary w).getD UNK_ID)

/-- Whether p is a leading piece of s, on the character lists. -/
def strStartsWith (s p : String) : Bool :=
  p.toList.isPrefixOf s.toList

/-- Whether p is a trailing piece of s, on the character lists. -/
def strEndsWith (s p : String) : Bool :=
  p.toList.reverse.isPrefixOf s.toList.reverse

/-- os.path.join for two components on a posix system. -/
def osPathJoin (a b : String) : String :=
  if strStartsWith b "/" then b
  else if a = "" then b
  else if strEndsWith a "/" then a ++ b
  else a ++ "/" ++ b

/-- A target-file field of the Files record: a single shared path, or one
path per source extension. -/
inductive PathField where
  | single (s : String)
  | perExt (l : List String)
deriving DecidableEq

/-- The named tuple returned by get_filenames. -/
structure Files where
  src_train : List String
  trg_train : PathField
  src_dev : List String
  trg_dev : String
  src_vocab : List String
  trg_vocab : String
  src_train_ids : List String
  trg_train_ids : PathField
  src_dev_ids : List String
  trg_dev_ids : String
deriving DecidableEq

/-- get_filenames from data_utils.py. The multi_task argument is an optional
boolean because the code tests it with the Python test multi_task is not None
rather than by truthiness; its Python default False is some false here. -/
def get_filenames (data_dir : String) (src_ext : List String) (trg_ext : String)
    (src_vocab_size trg_vocab_size : Nat) (train_pfx dev_pfx : String)
    (multi_task : Option Bool) : Files :=
  let train_path := osPathJoin data_dir train_pfx
  let src_train := src_ext.map (fun ext => train_path ++ "." ++ ext)
  let src_train_ids := src_ext.map
    (fun ext => train_path ++ ".ids" ++ toString src_vocab_size ++ "." ++ ext)
  let trg_train :=
    if multi_task.isSome then
      PathField.perExt (src_ext.map (fun ext => train_path ++ "." ++ ext ++ "." ++ trg_ext))
    else
      PathField.single (train_path ++ "." ++ trg_ext)
  let trg_train_ids :=
    if multi_task.isSome then
      PathField.perExt (src_ext.map
        (fun ext => train_path ++ ".ids" ++ toString trg_vocab_size ++ "." ++ ext ++ "." ++ trg_ext))
    else
      PathField.single (train_path ++ ".ids" ++ toString trg_vocab_size ++ "." ++ trg_ext)
  let dev_path := osPathJoin data_dir dev_pfx
  let src_dev := src_ext.map (fun ext => dev_path ++ "." ++ ext)
  let trg_dev := dev_path ++ "." ++ trg_ext
  let src_dev_ids := src_ext.map
    (fun ext => dev_path ++ ".ids" ++ toString src_vocab_size ++ "." ++ ext)
  let trg_dev_ids := dev_path ++ ".ids" ++ toString trg_vocab_size ++ "." ++ trg_ext
  let src_vocab := src_ext.map
    (fun ext => osPathJoin data_dir ("vocab" ++ toString src_vocab_size ++ "." ++ ext))
  let trg_vocab := osPathJoin data_dir ("vocab" ++ toString trg_vocab_size ++ "." ++ trg_ext)
  { src_train := src_train, trg_train := trg_train, src_dev := src_dev,
    trg_dev := trg_dev, src_vocab := src_vocab, trg_vocab := trg_vocab,
    src_train_ids := src_train_ids, trg_train_ids := trg_train_ids,
    src_dev_ids := src_dev_ids, trg_dev_ids := trg_dev_ids }

/-- Digits to a natural number, most significant first. -/
def digitsToNat (l : List Char) : Nat :=
  l.foldl (fun n c => n * 10 + (c.toNat - '0'.toNat)) 0

/-- Magnitude part of a Python float literal: digits with an optional
fractional part. Exponent and inf/nan forms are not modelled. -/
def pyFloatMag (l : List Char) : Option ℚ :=
  let intPart := l.takeWhile Char.isDigit
  let l1 := l.dropWhile Char.isDigit
  match l1 with
  | [] => if intPart.isEmpty then none else some (digitsToNat intPart : ℚ)
  | '.' :: rest =>
    let fracPart := rest.takeWhile Char.isDigit
    let l2 := rest.dropWhile Char.isDigit
    if l2.isEmpty then
      if intPart.isEmpty && fracPart.isEmpty then none
      else some ((digitsToNat intPart : ℚ) +
        (digitsToNat fracPart : ℚ) / ((10 : ℚ) ^ fracPart.length))
    else none
  | _ => none

/-- The Python float builtin on a string, with exact rational values (every
IEEE float is a rational number). Returns none where Python raises. -/
def pyFloat (s : String) : Option ℚ :=
  let l := (((s.toList.dropWhile pyIsSpace).reverse.dropWhile pyIsSpace).reverse)
  match l with
  | '-' :: rest => (pyFloatMag rest).map (fun q => -q)
  | '+' :: rest => pyFloatMag rest
  | rest => pyFloatMag rest

/-- The Python int builtin on a string: optional sign and digits. -/
def pyInt (s : String) : Option Int :=
  let l := (((s.toList.dropWhile pyIsSpace).reverse.dropWhile pyIsSpace).reverse)
  match l with
  | '-' :: rest =>
    if rest.isEmpty || rest.any (fun c => !c.isDigit) then none
    else some (-(digitsToNat rest : Int))
  | '+' :: rest =>
    if rest.isEmpty || rest.any (fun c => !c.isDigit) then none
    else some (digitsToNat rest : Int)
  | rest =>
    if rest.isEmpty || rest.any (fun c => !c.isDigit) then none
    else some (digitsToNat rest : Int)

/-- The named tuple built by bleu_score from the three parsed groups. -/
structure BLEU where
  score : ℚ
  penalty : ℚ
  ratio : ℚ
deriving DecidableEq

/-- Longest run of characters other than a comma. -/
def takeNonComma (l : List Char) : List Char :=
  l.takeWhile (fun c => c ≠ ',')

/-- Remainder after the longest run of characters other than a comma. -/
def dropNonComma (l : List Char) : List Char :=
  l.dropWhile (fun c => c ≠ ',')

/-- Match the tail of the bleu_score pattern at the start of l:
the literal BP=, a greedy comma-free group, the literal comma-space-ratio=,
and a final greedy comma-free group. -/
def matchBPTail (l : List Char) : Option (List Char × List Char) :=
  match l with
  | 'B' :: 'P' :: '=' :: rest =>
    let g2 := takeNonComma rest
    match dropNonComma rest with
    | ',' :: ' ' :: 'r' :: 'a' :: 't' :: 'i' :: 'o' :: '=' :: r3 =>
      some (g2, takeNonComma r3)
    | _ => none
  | _ => none

/-- Greedy dot-star search: try to place matchBPTail after i consumed
characters, longest consumption first, never consuming a newline
(the regex dot does not match a newline). -/
def tryDrops (l : List Char) : Nat → Option (List Char × List Char)
  | 0 => matchBPTail l
  | i + 1 =>
    match (if (l.take (i + 1)).any (fun c => c = '\n') then none
           else matchBPTail (l.drop (i + 1))) with
    | some r => some r
    | none => tryDrops l i

/-- Greedy first-group search: group one is a comma-free run after the
literal, tried longest first; for each candidate the rest of the pattern is
matched by tryDrops. -/
def tryG1 (rest : List Char) : Nat → Option (List Char × List Char × List Char)
  | 0 =>
    match tryDrops rest rest.length with
    | some (g2, g3) => some ([], g2, g3)
    | none => none
  | j + 1 =>
    if (rest.take (j + 1)).all (fun c => c ≠ ',') then
      match tryDrops (rest.drop (j + 1)) (rest.drop (j + 1)).length with
      | some (g2, g3) => some (rest.take (j + 1), g2, g3)
      | none => tryG1 rest j
    else tryG1 rest j

/-- The anchored match of the bleu_score regular expression
BLEU = ([^,]*).*BP=([^,]*), ratio=([^,]*) with leftmost-greedy semantics,
returning the three groups. -/
def bleuMatch (l : List Char) : Option (List Char × List Char × List Char) :=
  match l with
  | 'B' :: 'L' :: 'E' :: 'U' :: ' ' :: '=' :: ' ' :: rest =>
    tryG1 rest (takeNonComma rest).length
  | _ => none

/-- The parsing step of bleu_score from data_utils.py: match the regular
expression against the captured standard output and convert the three groups
with float, packing them into the BLEU named tuple. Returns none where the
code would raise. -/
def bleu_parse (output : String) : Option BLEU :=
  match bleuMatch output.toList with
  | none => none
  | some (g1, g2, g3) =>
    match pyFloat (String.mk g1), pyFloat (String.mk g2), pyFloat (String.mk g3) with
    | some a, some b, some c => some ⟨a, b, c⟩
    | _, _, _ => none

/-- A numpy two-dimensional float array, with exact rational entries. -/
abbrev Mat := List (List ℚ)

/-- np.zeros on a (rows, cols) shape. -/
def npZeros (rows cols : Nat) : Mat :=
  List.replicate rows (List.replicate cols 0)

/-- Parse the float fields of one embedding line (the Python
map float applied to the fields after the token). -/
def parseFloats : List String → Option (List ℚ)
  | [] => some []
  | s :: rest =>
    match pyFloat s, parseFloats rest with
    | some q, some r => some (q :: r)
    | _, _ => none

/-- Build the token-to-vector pair list of an embedding file from its
whitespace-split data lines: index zero of each line is the token and the
remaining fields its float vector.  An empty line raises IndexError, an
unparseable float raises ValueError. -/
def buildD : List (List String) → Except PyErr (List (String × List ℚ))
  | [] => .ok []
  | [] :: _ => .error .indexError
  | (w :: vals) :: rest =>
    match parseFloats vals with
    | none => .error (.valueError "could not convert string to float" none)
    | some v =>
      match buildD rest with
      | .ok d => .ok ((w, v) :: d)
      | .error e => .error e

/-- Reading one embedding file inside read_embeddings: split every line on
whitespace, unpack the first line as a two-field dimension header, assert the
declared dimension against the expected size, and build the token-to-vector
dictionary from the remaining lines. -/
def read_embedding_file (content : List String) (size : Nat) :
    Except PyErr (Dict (List ℚ)) :=
  match content with
  | [] => .error .stopIteration
  | first :: rest =>
    match pySplit first with
    | [_, size2] =>
      match pyInt size2 with
      | none => .error (.valueError "invalid literal for int" none)
      | some n =>
        if n = (size : Int) then
          match buildD (rest.map pySplit) with
          | .ok pairs => .ok (dictOfList pairs)
          | .error e => .error e
        else .error (.assertionError "wrong embedding size")
    | _ => .error (.valueError "unpack" none)

/-- The row np.random.uniform draws for the vocabulary index of a token with
no pretrained vector: one sampled value per dimension. The sampler oracle
stands for the random generator. -/
def uniformRow (sample : Nat → Nat → ℚ) (index size : Nat) : List ℚ :=
  (List.range size).map (fun j => sample index j)

/-- The row stored for one vocabulary token: the pretrained vector when the
token is in the embedding dictionary, a uniformly sampled row otherwise. -/
def rowFor (d : Dict (List ℚ)) (sample : Nat → Nat → ℚ) (size : Nat)
    (word : String) (index : Nat) : List ℚ :=
  match dictGet d word with
  | some v => v
  | none => uniformRow sample index size

/-- Numpy row assignment embedding[index] = v: IndexError when the row index
is out of range, an error when the vector does not fit the row. -/
def setRow (m : Mat) (index : Nat) (v : List ℚ) : Except PyErr Mat :=
  match m.get? index with
  | none => .error .indexError
  | some row =>
    if v.length = row.length then .ok (m.set index v)
    else .error (.valueError "could not broadcast" none)

/-- The alignment loop of read_embeddings over the items of the vocabulary
dictionary: assign each vocabulary index its row. -/
def alignRows (d : Dict (List ℚ)) (size : Nat) (sample : Nat → Nat → ℚ) :
    List (String × Nat) → Mat → Except PyErr Mat
  | [], m => .ok m
  | (word, index) :: rest, m =>
    match setRow m index (rowFor d sample size word index) with
    | .ok m2 => alignRows d size sample rest m2
    | .error e => .error e

/-- Processing of one language with an existing embedding file inside
read_embeddings: read the file, load the vocabulary, and align the
zero-initialised (vocab_size, size) table. -/
def process_language (fs : String → Option (List String)) (content : List String)
    (vocab_path : String) (vocab_size size : Nat) (sample : Nat → Nat → ℚ) :
    Except PyErr Mat :=
  match read_embedding_file content size with
  | .error e => .error e
  | .ok d =>
    match initialize_vocabulary fs vocab_path with
    | .error e => .error e
    | .ok (vocab, _) => alignRows d size sample vocab (npZeros vocab_size size)

/-- The embedding filename for one extension. -/
def embFilename (data_dir epfx ext : String) : String :=
  osPathJoin data_dir (epfx ++ "." ++ ext)

/-- Python truthiness of the optional embedding-file name part: None and the
empty string are falsy. -/
def pyTruthy : Option String → Bool
  | none => false
  | some s => s ≠ ""

/-- The per-language loop of read_embeddings: a missing embedding file
appends an explicit none, an existing one is processed; the counter li
numbers the languages for the sampler oracle. -/
def readLoop (fs : String → Option (List String)) (data_dir epfx : String)
    (size : Nat) (sample : Nat → Nat → Nat → ℚ) :
    List ((String × String) × Nat) → Nat → Except PyErr (List (Option Mat))
  | [], _ => .ok []
  | ((ext, vocab_path), vocab_size) :: rest, li =>
    match fs (embFilename data_dir epfx ext) with
    | none =>
      match readLoop fs data_dir epfx size sample rest (li + 1) with
      | .ok l => .ok (none :: l)
      | .error e => .error e
    | some content =>
      match process_language fs content vocab_path vocab_size size (sample li) with
      | .ok m =>
        match readLoop fs data_dir epfx size sample rest (li + 1) with
        | .ok l => .ok (some m :: l)
        | .error e => .error e
      | .error e => .error e

/-- read_embeddings from data_utils.py. The filesystem oracle fs serves both
the embedding files and the vocabulary files; the sampler oracle stands for
np.random.uniform, indexed by language, row and column. Returns ok none when
no embedding name part is supplied. -/
def read_embeddings (fs : String → Option (List String)) (data_dir : String)
    (src_ext : List String) (trg_ext : String)
    (src_vocab_size trg_vocab_size : Nat)
    (src_vocab : List String) (trg_vocab : String)
    (embedding_pfx : Option String) (size : Nat)
    (sample : Nat → Nat → Nat → ℚ) : Except PyErr (Option (List (Option Mat))) :=
  if pyTruthy embedding_pfx then
    let epfx := embedding_pfx.getD ""
    let extensions := src_ext ++ [trg_ext]
    let vocab_paths := src_vocab ++ [trg_vocab]
    let vocab_sizes := List.replicate src_ext.length src_vocab_size ++ [trg_vocab_size]
    match readLoop fs data_dir epfx size sample
        ((extensions.zip vocab_paths).zip vocab_sizes) 0 with
    | .ok l => .ok (some l)
    | .error e => .error e
  else .ok none

/-- First-some choice on options. -/
def optOr {β : Type} : Option β → Option β → Option β
  | some x, _ => some x
  | none, b => b

/-- The value of the last pair of ps with the given key, if any. -/
def lastVal {β : Type} : List (String × β) → String → Option β
  | [], _ => none
  | (k2, v) :: rest, k =>
    match lastVal rest k with
    | some w => some w
    | none => if k = k2 then some v else none

/-- The position of the last occurrence of tok in l, counting from i. -/
def lastIdxFrom : List String → String → Nat → Option Nat
  | [], _, _ => none
  | x :: xs, tok, i =>
    match lastIdxFrom xs tok (i + 1) with
    | some j => some j
    | none => if tok = x then some i else none

/-- The position of the last occurrence of tok in l. -/
def lastIdx (l : List String) (tok : String) : Option Nat :=
  lastIdxFrom l tok 0

/-- The word of the last vocabulary entry carrying the given index, if any. -/
def lastWordAt : List (String × Nat) → Nat → Option String
  | [], _ => none
  | (w, j) :: rest, i =>
    match lastWordAt rest i with
    | some w2 => some w2
    | none => if j = i then some w else none

section Lemmas

variable {β : Type}

/-- dictGet after a Python dict assignment. -/
theorem dictGet_dictInsert (d : Dict β) (k k2 : String) (v : β) :
    dictGet (dictInsert d k v) k2 = if k2 = k then some v else dictGet d k2 := by
  induction d with
  | nil => by_cases h2 : k2 = k <;> simp [dictInsert, dictGet, h2]
  | cons p rest ih =>
    obtain ⟨k3, v3⟩ := p
    by_cases h3 : k3 = k
    · subst h3
      by_cases h2 : k2 = k3 <;> simp [dictInsert, dictGet, h2, ih]
    · by_cases h2 : k2 = k3
      · subst h2
        simp [dictInsert, dictGet, h3, ih, Ne.symm h3]
      · by_cases h4 : k2 = k
        · subst h4
          simp [dictInsert, dictGet, h2, h3, ih]
        · simp [dictInsert, dictGet, h2, h3, h4, ih]

/-- dictGet over the fold that builds a dict from a pair list. -/
theorem dictGet_foldl (ps : List (String × β)) (d0 : Dict β) (k : String) :
    dictGet (ps.foldl (fun d p => dictInsert d p.1 p.2) d0) k =
      optOr (lastVal ps k) (dictGet d0 k) := by
  induction ps generalizing d0 with
  | nil => simp [lastVal, optOr]
  | cons p rest ih =>
    obtain ⟨k2, v2⟩ := p
    simp only [List.foldl_cons, ih, dictGet_dictInsert, lastVal]
    cases hl : lastVal rest k with
    | some w => simp [optOr]
    | none =>
      by_cases h2 : k = k2 <;> simp [h2, optOr]

/-- dictGet on a dict built from a pair list finds the last value stored at
the key. -/
theorem dictGet_dictOfList (ps : List (String × β)) (k : String) :
    dictGet (dictOfList ps) k = lastVal ps k := by
  unfold dictOfList
  rw [dictGet_foldl]
  cases hl : lastVal ps k <;> simp [optOr, dictGet]

/-- The pair list enumerate builds for the vocabulary dict finds, as a dict,
the last index at which a token occurs. -/
theorem lastVal_enumFrom (l : List String) (tok : String) :
    ∀ i, lastVal ((List.enumFrom i l).map (fun p => (p.2, p.1))) tok =
      lastIdxFrom l tok i := by
  induction l with
  | nil => intro i; rfl
  | cons x xs ih =>
    intro i
    simp only [List.enumFrom, List.map_cons, lastVal, lastIdxFrom, ih]
    cases hr : lastIdxFrom xs tok (i + 1) <;> simp [hr]

/-- Lookup in the token-to-index dict built by initialize_vocabulary is the
last index at which the token occurs in the line list. -/
theorem dictGet_vocabDict (l : List String) (tok : String) :
    dictGet (dictOfList (l.enum.map (fun p => (p.2, p.1)))) tok = lastIdx l tok := by
  rw [dictGet_dictOfList]
  exact lastVal_enumFrom l tok 0

/-- A found last-occurrence index is in range and points at the token. -/
theorem lastIdxFrom_sound (l : List String) (tok : String) :
    ∀ i j, lastIdxFrom l tok i = some j →
      i ≤ j ∧ j < i + l.length ∧ l.get? (j - i) = some tok := by
  induction l with
  | nil => intro i j h; simp [lastIdxFrom] at h
  | cons x xs ih =>
    intro i j h
    simp only [lastIdxFrom] at h
    cases hr : lastIdxFrom xs tok (i + 1) with
    | some j2 =>
      rw [hr] at h
      obtain ⟨h1, h2, h3⟩ := ih (i + 1) j2 hr
      have he : j = j2 := (Option.some.inj h).symm
      subst he
      refine ⟨by omega, by simp [List.length_cons]; omega, ?_⟩
      have hj : j - i = (j - (i + 1)) + 1 := by omega
      rw [hj, List.get?_cons_succ]
      exact h3
    | none =>
      rw [hr] at h
      by_cases hx : tok = x
      · rw [if_pos hx] at h
        cases h
        refine ⟨le_refl i, by simp [List.length_cons], ?_⟩
        simp [hx]
      · rw [if_neg hx] at h
        cases h

/-- A token that occurs in the list has a last-occurrence index. -/
theorem lastIdxFrom_complete (l : List String) (tok : String) :
    ∀ i, tok ∈ l → (lastIdxFrom l tok i).isSome := by
  induction l with
  | nil => intro i h; cases h
  | cons x xs ih =>
    intro i h
    simp only [lastIdxFrom]
    cases hr : lastIdxFrom xs tok (i + 1) with
    | some j => simp
    | none =>
      rcases List.mem_cons.mp h with h1 | h2
      · simp [h1]
      · have := ih (i + 1) h2
        rw [hr] at this
        cases this

/-- No occurrence of the token lies beyond its last-occurrence index. -/
theorem lastIdxFrom_last (l : List String) (tok : String) :
    ∀ i j, lastIdxFrom l tok i = some j →
      ∀ k, l.get? k = some tok → i + k ≤ j := by
  induction l with
  | nil => intro i j h k hk; simp at hk
  | cons x xs ih =>
    intro i j h k hk
    simp only [lastIdxFrom] at h
    cases hr : lastIdxFrom xs tok (i + 1) with
    | some j2 =>
      rw [hr] at h
      have he : j = j2 := (Option.some.inj h).symm
      subst he
      cases k with
      | zero =>
        have := (lastIdxFrom_sound xs tok (i + 1) j hr).1
        omega
      | succ k2 =>
        have := ih (i + 1) j hr k2 (by simpa using hk)
        omega
    | none =>
      rw [hr] at h
      by_cases hx : tok = x
      · rw [if_pos hx] at h
        cases h
        cases k with
        | zero => omega
        | succ k2 =>
          have hmem : tok ∈ xs := List.get?_mem (by simpa using hk)
          have := lastIdxFrom_complete xs tok (i + 1) hmem
          rw [hr] at this
          cases this
      · rw [if_neg hx] at h
        cases h

/-- Keys of a dict after an assignment: at most the old keys and the new
key. -/
theorem keys_dictInsert_subset (d : Dict β) (k k2 : String) (v : β) :
    k2 ∈ (dictInsert d k v).map Prod.fst → k2 ∈ d.map Prod.fst ∨ k2 = k := by
  induction d with
  | nil => intro h; simp [dictInsert] at h; exact Or.inr h
  | cons p rest ih =>
    obtain ⟨k3, v3⟩ := p
    intro h
    by_cases h3 : k3 = k
    · simp only [dictInsert, if_pos h3, List.map_cons, List.mem_cons] at h
      rcases h with h | h
      · exact Or.inl (by simp [h])
      · exact Or.inl (by simp [h])
    · simp only [dictInsert, if_neg h3, List.map_cons, List.mem_cons] at h
      rcases h with h | h
      · exact Or.inl (by simp [h])
      · rcases ih h with h2 | h2
        · exact Or.inl (by simp [h2])
        · exact Or.inr h2

/-- A Python dict assignment keeps the keys pairwise distinct. -/
theorem keysNodup_dictInsert (d : Dict β) (k : String) (v : β)
    (h : (d.map Prod.fst).Nodup) : ((dictInsert d k v).map Prod.fst).Nodup := by
  induction d with
  | nil => simp [dictInsert]
  | cons p rest ih =>
    obtain ⟨k3, v3⟩ := p
    simp only [List.map_cons, List.nodup_cons] at h
    by_cases h3 : k3 = k
    · simp only [dictInsert, if_pos h3, List.map_cons, List.nodup_cons]
      exact h
    · simp only [dictInsert, if_neg h3, List.map_cons, List.nodup_cons]
      refine ⟨?_, ih h.2⟩
      intro hmem
      rcases keys_dictInsert_subset rest k k3 v hmem with h2 | h2
      · exact h.1 h2
      · exact h3 h2

/-- The dict built from a pair list has pairwise distinct keys. -/
theorem keysNodup_dictOfList (ps : List (String × β)) :
    ((dictOfList ps).map Prod.fst).Nodup := by
  have main : ∀ (qs : List (String × β)) (d0 : Dict β), (d0.map Prod.fst).Nodup →
      ((qs.foldl (fun d p => dictInsert d p.1 p.2) d0).map Prod.fst).Nodup := by
    intro qs
    induction qs with
    | nil => intro d0 h; simpa using h
    | cons p rest ih =>
      intro d0 h
      simpa using ih (dictInsert d0 p.1 p.2) (keysNodup_dictInsert d0 p.1 p.2 h)
  simpa using main ps [] (by simp)

/-- A successful dict lookup comes from a binding of the dict. -/
theorem dictGet_mem (d : Dict β) (k : String) (v : β)
    (h : dictGet d k = some v) : (k, v) ∈ d := by
  induction d with
  | nil => simp [dictGet] at h
  | cons p rest ih =>
    obtain ⟨k2, v2⟩ := p
    simp only [dictGet] at h
    by_cases h2 : k = k2
    · rw [if_pos h2] at h
      cases h
      simp [h2]
    · rw [if_neg h2] at h
      exact List.mem_cons_of_mem _ (ih h)

/-- On a dict with pairwise distinct keys, every binding is found by
lookup. -/
theorem mem_dictGet (d : Dict β) (k : String) (v : β)
    (hn : (d.map Prod.fst).Nodup) (h : (k, v) ∈ d) : dictGet d k = some v := by
  induction d with
  | nil => cases h
  | cons p rest ih =>
    obtain ⟨k2, v2⟩ := p
    simp only [List.map_cons, List.nodup_cons] at hn
    rcases List.mem_cons.mp h with h1 | h1
    · cases h1
      simp [dictGet]
    · have hne : ¬ k = k2 := by
        intro he
        exact hn.1 (by simpa [he] using List.mem_map_of_mem Prod.fst h1)
      simp only [dictGet, if_neg hne]
      exact ih hn.2 h1

/-- A Python dict assignment grows the dict by at most one binding. -/
theorem dictInsert_length (d : Dict β) (k : String) (v : β) :
    (dictInsert d k v).length ≤ d.length + 1 := by
  induction d with
  | nil => simp [dictInsert]
  | cons p rest ih =>
    obtain ⟨k2, v2⟩ := p
    by_cases h2 : k2 = k
    · simp [dictInsert, if_pos h2]
    · simp only [dictInsert, if_neg h2, List.length_cons]
      omega

/-- A dict built from a pair list has at most as many bindings as pairs. -/
theorem dictOfList_length (ps : List (String × β)) :
    (dictOfList ps).length ≤ ps.length := by
  have main : ∀ (qs : List (String × β)) (d0 : Dict β),
      (qs.foldl (fun d p => dictInsert d p.1 p.2) d0).length ≤ d0.length + qs.length := by
    intro qs
    induction qs with
    | nil => intro d0; simp
    | cons p rest ih =>
      intro d0
      calc (rest.foldl (fun d p => dictInsert d p.1 p.2) (dictInsert d0 p.1 p.2)).length
          ≤ (dictInsert d0 p.1 p.2).length + rest.length := ih (dictInsert d0 p.1 p.2)
        _ ≤ d0.length + 1 + rest.length := by
            have := dictInsert_length d0 p.1 p.2
            omega
        _ = d0.length + (p :: rest).length := by simp [List.length_cons]; omega
  simpa using main ps []

/-- A found last word at an index comes from an entry of the list. -/
theorem lastWordAt_sound (l : List (String × Nat)) (i : Nat) :
    ∀ w, lastWordAt l i = some w → (w, i) ∈ l := by
  induction l with
  | nil => intro w h; simp [lastWordAt] at h
  | cons p rest ih =>
    obtain ⟨w2, j2⟩ := p
    intro w h
    simp only [lastWordAt] at h
    cases hr : lastWordAt rest i with
    | some w3 =>
      rw [hr] at h
      have he : w = w3 := (Option.some.inj h).symm
      subst he
      exact List.mem_cons_of_mem _ (ih w hr)
    | none =>
      rw [hr] at h
      by_cases hj : j2 = i
      · rw [if_pos hj] at h
        cases h
        simp [hj]
      · rw [if_neg hj] at h
        cases h

/-- An entry with the given index guarantees a last word at that index. -/
theorem lastWordAt_complete (l : List (String × Nat)) (w : String) (i : Nat)
    (h : (w, i) ∈ l) : (lastWordAt l i).isSome := by
  induction l with
  | nil => cases h
  | cons p rest ih =>
    obtain ⟨w2, j2⟩ := p
    simp only [lastWordAt]
    cases hr : lastWordAt rest i with
    | some w3 => simp
    | none =>
      rcases List.mem_cons.mp h with h1 | h1
      · cases h1
        simp
      · have := ih h1
        rw [hr] at this
        cases this

/-- On an existing file, initialize_vocabulary strips the lines and builds
the token-to-index dict from the enumerated stripped lines. -/
theorem initialize_vocabulary_ok (fs : String → Option (List String))
    (path : String) (lines : List String) (h : fs path = some lines) :
    initialize_vocabulary fs path =
      .ok (dictOfList ((lines.map pyStrip).enum.map (fun p => (p.2, p.1))),
           lines.map pyStrip) := by
  simp [initialize_vocabulary, h]

/-- Inversion: a successful initialize_vocabulary comes from an existing file
whose stripped lines are the returned list. -/
theorem initialize_vocabulary_inv (fs : String → Option (List String))
    (path : String) (vocab : Dict Nat) (rv : List String)
    (h : initialize_vocabulary fs path = .ok (vocab, rv)) :
    ∃ lines, fs path = some lines ∧ rv = lines.map pyStrip ∧
      vocab = dictOfList (rv.enum.map (fun p => (p.2, p.1))) := by
  cases hf : fs path with
  | none => simp [initialize_vocabulary, hf] at h
  | some lines =>
    rw [initialize_vocabulary_ok fs path lines hf] at h
    injection h with h2
    injection h2 with h3 h4
    exact ⟨lines, rfl, h4.symm, by rw [h3.symm, h4]⟩

end Lemmas

/-- C3: for every existing vocabulary file, initialize_vocabulary strips each
line and returns the full list of stripped lines in file order together with
a token-to-index mapping; the list keeps one entry per line, and the mapping
sends each token of the list to the index of its last occurrence (later
occurrences overwrite earlier indices). -/
theorem claim_C3 (fs : String → Option (List String)) (path : String)
    (lines : List String) (h : fs path = some lines) :
    ∃ vocab rv, initialize_vocabulary fs path = .ok (vocab, rv) ∧
      rv = lines.map pyStrip ∧
      rv.length = lines.length ∧
      (∀ tok, tok ∈ rv → (dictGet vocab tok).isSome) ∧
      ∀ tok j, dictGet vocab tok = some j →
        rv.get? j = some tok ∧ ∀ k, rv.get? k = some tok → k ≤ j := by
  refine ⟨_, _, initialize_vocabulary_ok fs path lines h, rfl, by simp, ?_, ?_⟩
  · intro tok hmem
    rw [dictGet_vocabDict]
    exact lastIdxFrom_complete _ tok 0 hmem
  · intro tok j hj
    rw [dictGet_vocabDict] at hj
    obtain ⟨h1, h2, h3⟩ := lastIdxFrom_sound _ tok 0 j hj
    refine ⟨by simpa using h3, ?_⟩
    intro k hk
    have := lastIdxFrom_last _ tok 0 j hj k hk
    omega

/-- Witness for C3 on a file with a duplicated token. -/
theorem claim_C3_witness :
    ∃ vocab rv,
      initialize_vocabulary (fun _ => some ["a", "b", "a"]) "voc" = .ok (vocab, rv) ∧
      rv = ["a", "b", "a"].map pyStrip ∧
      rv.length = (["a", "b", "a"] : List String).length ∧
      (∀ tok, tok ∈ rv → (dictGet vocab tok).isSome) ∧
      ∀ tok j, dictGet vocab tok = some j →
        rv.get? j = some tok ∧ ∀ k, rv.get? k = some tok → k ≤ j :=
  claim_C3 (fun _ => some ["a", "b", "a"]) "voc" ["a", "b", "a"] rfl

/-- C5: initialize_vocabulary on a missing path raises ValueError whose
arguments name the missing path and returns nothing; on an existing path it
returns normally. -/
theorem claim_C5 (fs : String → Option (List String)) (path : String) :
    (fs path = none →
      initialize_vocabulary fs path =
        .error (.valueError "Vocabulary file %s not found." (some path))) ∧
    (∀ lines, fs path = some lines →
      ∃ r, initialize_vocabulary fs path = .ok r) := by
  constructor
  · intro h
    simp [initialize_vocabulary, h]
  · intro lines h
    exact ⟨_, initialize_vocabulary_ok fs path lines h⟩

/-- Witness for C5: a missing file raises naming the path, an existing empty
file returns normally. -/
theorem claim_C5_witness :
    initialize_vocabulary (fun _ => none) "missing.txt" =
      .error (.valueError "Vocabulary file %s not found." (some "missing.txt")) ∧
    ∃ r, initialize_vocabulary (fun _ => some ["a"]) "there.txt" = .ok r :=
  ⟨(claim_C5 (fun _ => none) "missing.txt").1 rfl,
   (claim_C5 (fun _ => some ["a"]) "there.txt").2 ["a"] rfl⟩

/-- C6: for a token occurring exactly once in the returned list, looking the
token up in the mapping and reading the list back at that index returns the
token. -/
theorem claim_C6 (fs : String → Option (List String)) (path : String)
    (vocab : Dict Nat) (rv : List String)
    (h : initialize_vocabulary fs path = .ok (vocab, rv))
    (tok : String) (hcount : rv.count tok = 1) :
    ∃ i, dictGet vocab tok = some i ∧ rv.get? i = some tok := by
  obtain ⟨lines, hf, hrv, hvocab⟩ := initialize_vocabulary_inv fs path vocab rv h
  subst hvocab
  have hmem : tok ∈ rv := by
    have : 0 < rv.count tok := by omega
    exact List.count_pos_iff_mem.mp this
  have hsome : (dictGet (dictOfList (rv.enum.map (fun p => (p.2, p.1)))) tok).isSome := by
    rw [dictGet_vocabDict]
    exact lastIdxFrom_complete rv tok 0 hmem
  obtain ⟨i, hi⟩ := Option.isSome_iff_exists.mp hsome
  refine ⟨i, hi, ?_⟩
  rw [dictGet_vocabDict] at hi
  simpa using (lastIdxFrom_sound rv tok 0 i hi).2.2

/-- Witness for C6 on a vocabulary with a unique token. -/
theorem claim_C6_witness :
    ∃ i, dictGet [("a", 2), ("b", 1)] "b" = some i ∧
      (["a", "b", "a"] : List String).get? i = some "b" :=
  claim_C6 (fun _ => some ["a", "b", "a"]) "voc" [("a", 2), ("b", 1)]
    ["a", "b", "a"] (by decide) "b" (by decide)

/-- C10: every index stored in the returned mapping is a valid position of
the returned list, and the mapping has at most as many bindings as the list
has entries. -/
theorem claim_C10 (fs : String → Option (List String)) (path : String)
    (vocab : Dict Nat) (rv : List String)
    (h : initialize_vocabulary fs path = .ok (vocab, rv)) :
    (∀ tok i, dictGet vocab tok = some i → i < rv.length) ∧
    vocab.length ≤ rv.length := by
  obtain ⟨lines, hf, hrv, hvocab⟩ := initialize_vocabulary_inv fs path vocab rv h
  subst hvocab
  constructor
  · intro tok i hi
    rw [dictGet_vocabDict] at hi
    have := (lastIdxFrom_sound rv tok 0 i hi).2.1
    omega
  · calc (dictOfList (rv.enum.map (fun p => (p.2, p.1)))).length
        ≤ (rv.enum.map (fun p => (p.2, p.1))).length := dictOfList_length _
      _ = rv.length := by simp

/-- Witness for C10 on a vocabulary with a duplicated token. -/
theorem claim_C10_witness :
    (∀ tok i, dictGet [("a", 2), ("b", 1)] tok = some i →
      i < (["a", "b", "a"] : List String).length) ∧
    ([("a", 2), ("b", 1)] : Dict Nat).length ≤
      (["a", "b", "a"] : List String).length :=
  claim_C10 (fun _ => some ["a", "b", "a"]) "voc" [("a", 2), ("b", 1)]
    ["a", "b", "a"] (by decide)

/-- C4: sentence_to_token_ids returns one id per whitespace-separated token
of the sentence, each id being the index the mapping stores for the token or
the unknown sentinel UNK_ID = 3 when the token is absent. -/
theorem claim_C4 (s : String) (v : Dict Nat) :
    (sentence_to_token_ids s v).length = (pySplit s).length ∧
    UNK_ID = 3 ∧
    ∀ i w, (pySplit s).get? i = some w →
      (sentence_to_token_ids s v).get? i = some ((dictGet v w).getD UNK_ID) := by
  refine ⟨by simp [sentence_to_token_ids], rfl, ?_⟩
  intro i w hw
  show ((pySplit s).map (fun w => (dictGet v w).getD UNK_ID)).get? i = _
  rw [List.get?_map, hw]
  rfl

/-- Witness for C4 on a sentence with a known and an unknown token. -/
theorem claim_C4_witness :
    (sentence_to_token_ids "x y" [("x", 0)]).get? 1 =
      some ((dictGet [("x", 0)] "y").getD UNK_ID) :=
  (claim_C4 "x y" [("x", 0)]).2.2 1 "y" (by decide)

/-- C7: the BLEU output parser extracts the named triple
(score 24.5, penalty 0.98, ratio 1.01) from the canned standard output. -/
theorem claim_C7 :
    bleu_parse "BLEU = 24.5, 100/100, BP=0.98, ratio=1.01" =
      some { score := 49/2, penalty := 49/50, ratio := 101/100 } := by
  have h1 : bleuMatch ("BLEU = 24.5, 100/100, BP=0.98, ratio=1.01".toList) =
      some (['2', '4', '.', '5'],
            ['0', '.', '9', '8'],
            ['1', '.', '0', '1']) := by decide
  have p1 : pyFloat (String.mk ['2', '4', '.', '5']) =
      some ((digitsToNat ['2', '4'] : ℚ) +
        (digitsToNat ['5'] : ℚ) / (10 : ℚ) ^ (['5'] : List Char).length) := rfl
  have p2 : pyFloat (String.mk ['0', '.', '9', '8']) =
      some ((digitsToNat ['0'] : ℚ) +
        (digitsToNat ['9', '8'] : ℚ) / (10 : ℚ) ^ (['9', '8'] : List Char).length) := rfl
  have p3 : pyFloat (String.mk ['1', '.', '0', '1']) =
      some ((digitsToNat ['1'] : ℚ) +
        (digitsToNat ['0', '1'] : ℚ) / (10 : ℚ) ^ (['0', '1'] : List Char).length) := rfl
  have d1 : digitsToNat ['2', '4'] = 24 := by decide
  have d2 : digitsToNat ['5'] = 5 := by decide
  have d3 : digitsToNat ['0'] = 0 := by decide
  have d4 : digitsToNat ['9', '8'] = 98 := by decide
  have d5 : digitsToNat ['1'] = 1 := by decide
  have d6 : digitsToNat ['0', '1'] = 1 := by decide
  simp only [bleu_parse, h1, p1, p2, p3, d1, d2, d3, d4, d5, d6]
  norm_num

/-- C1 is a bug in the code: the branch is guarded by the Python test
multi_task is not None, and the default flag value False is not None, so the
per-extension target files are produced even with the flag unset; only the
value None selects the single shared target path. This theorem evaluates
get_filenames at an unset flag (the default some false) and at None. -/
theorem claim_C1_bug_eval :
    (get_filenames "data" ["fr", "de"] "en" 10 20 "train" "dev"
        (some false)).trg_train
      = PathField.perExt ["data/train.fr.en", "data/train.de.en"] ∧
    (get_filenames "data" ["fr", "de"] "en" 10 20 "train" "dev"
        (some false)).trg_train
      ≠ PathField.single "data/train.en" ∧
    (get_filenames "data" ["fr", "de"] "en" 10 20 "train" "dev"
        none).trg_train
      = PathField.single "data/train.en" := by
  decide

/-- Building the embedding dictionary never raises an assertion failure. -/
theorem buildD_no_assert (ls : List (List String)) (msg : String) :
    buildD ls ≠ .error (.assertionError msg) := by
  induction ls with
  | nil => simp [buildD]
  | cons l rest ih =>
    cases l with
    | nil => simp [buildD]
    | cons w vals =>
      simp only [buildD]
      cases parseFloats vals with
      | none => simp
      | some v =>
        cases hb : buildD rest with
        | ok d => simp
        | error e =>
          simp only [ne_eq, Except.error.injEq]
          intro he
          rw [he] at hb
          exact ih hb

/-- Loading a vocabulary never raises an assertion failure. -/
theorem initialize_vocabulary_no_assert (fs : String → Option (List String))
    (path : String) (msg : String) :
    initialize_vocabulary fs path ≠ .error (.assertionError msg) := by
  cases hf : fs path <;> simp [initialize_vocabulary, hf]

/-- A numpy row assignment never raises an assertion failure. -/
theorem setRow_no_assert (m : Mat) (i : Nat) (v : List ℚ) (msg : String) :
    setRow m i v ≠ .error (.assertionError msg) := by
  simp only [setRow]
  cases m.get? i with
  | none => simp
  | some row =>
    by_cases h : v.length = row.length <;> simp [h]

/-- The alignment loop never raises an assertion failure. -/
theorem alignRows_no_assert (d : Dict (List ℚ)) (size : Nat)
    (sample : Nat → Nat → ℚ) (msg : String) :
    ∀ (entries : List (String × Nat)) (m : Mat),
      alignRows d size sample entries m ≠ .error (.assertionError msg) := by
  intro entries
  induction entries with
  | nil => intro m; simp [alignRows]
  | cons p rest ih =>
    intro m
    obtain ⟨word, index⟩ := p
    simp only [alignRows]
    cases hs : setRow m index (rowFor d sample size word index) with
    | ok m2 => exact ih m2
    | error e =>
      simp only [ne_eq, Except.error.injEq]
      intro he
      rw [he] at hs
      exact setRow_no_assert m index _ msg hs

/-- C9: with an existing embedding file whose first line is a two-field
header with an integer second field, read_embeddings (through its
per-language step process_language) fails with the assertion failure
"wrong embedding size" exactly when the declared dimension differs from the
expected size; when they agree no assertion failure can arise. -/
theorem claim_C9 (fs : String → Option (List String)) (first : String)
    (rest : List String) (vocab_path : String) (vocab_size size : Nat)
    (sample : Nat → Nat → ℚ) (a b : String) (n : Int)
    (hsplit : pySplit first = [a, b]) (hn : pyInt b = some n) :
    (n ≠ (size : Int) →
      process_language fs (first :: rest) vocab_path vocab_size size sample =
        .error (.assertionError "wrong embedding size")) ∧
    (n = (size : Int) →
      ∀ msg,
        process_language fs (first :: rest) vocab_path vocab_size size sample ≠
          .error (.assertionError msg)) := by
  constructor
  · intro hne
    simp [process_language, read_embedding_file, hsplit, hn, if_neg hne]
  · intro heq msg
    simp only [process_language, read_embedding_file, hsplit, hn, if_pos heq]
    cases hb : buildD (rest.map pySplit) with
    | error e =>
      simp only [ne_eq, Except.error.injEq]
      intro he
      rw [he] at hb
      exact buildD_no_assert (rest.map pySplit) msg hb
    | ok pairs =>
      cases hv : initialize_vocabulary fs vocab_path with
      | error e =>
        simp only [ne_eq, Except.error.injEq]
        intro he
        rw [he] at hv
        exact initialize_vocabulary_no_assert fs vocab_path msg hv
      | ok pr =>
        obtain ⟨vocab, rv⟩ := pr
        exact alignRows_no_assert _ size sample msg vocab (npZeros vocab_size size)

/-- Witness for C9: a mismatched header asserts, a matching one does not. -/
theorem claim_C9_witness :
    (process_language (fun _ => some ["a"]) ["dim 3"] "voc" 1 2 (fun _ _ => 0) =
      .error (.assertionError "wrong embedding size")) ∧
    (∀ msg,
      process_language (fun _ => some ["a"]) ["dim 3"] "voc" 1 3 (fun _ _ => 0) ≠
        .error (.assertionError msg)) :=
  ⟨(claim_C9 (fun _ => some ["a"]) "dim 3" [] "voc" 1 2 (fun _ _ => 0)
      "dim" "3" 3 (by decide) (by decide)).1 (by decide),
   (claim_C9 (fun _ => some ["a"]) "dim 3" [] "voc" 1 3 (fun _ _ => 0)
      "dim" "3" 3 (by decide) (by decide)).2 (by decide)⟩

/-- Building a zip entry from entries of the two lists at the same
position. -/
theorem zip_get?_of {α γ : Type} :
    ∀ (l1 : List α) (l2 : List γ) (k : Nat) (a : α) (c : γ),
      l1.get? k = some a → l2.get? k = some c →
      (l1.zip l2).get? k = some (a, c) := by
  intro l1
  induction l1 with
  | nil => intro l2 k a c h1 h2; simp at h1
  | cons x xs ih =>
    intro l2 k a c h1 h2
    cases l2 with
    | nil => simp at h2
    | cons y ys =>
      cases k with
      | zero =>
        simp only [List.get?_cons_zero] at h1 h2
        cases h1
        cases h2
        simp [List.zip_cons_cons]
      | succ k2 =>
        simp only [List.get?_cons_succ] at h1 h2
        simpa [List.zip_cons_cons] using ih ys k2 a c h1 h2

/-- The loop of read_embeddings: when every language whose embedding file
exists processes successfully, the loop returns one entry per language, with
none exactly at the languages whose embedding file is missing. -/
theorem readLoop_spec (fs : String → Option (List String)) (data_dir epfx : String)
    (size : Nat) (sample : Nat → Nat → Nat → ℚ) :
    ∀ (zs : List ((String × String) × Nat)) (li0 : Nat),
      (∀ k e, zs.get? k = some e →
        ∀ content, fs (embFilename data_dir epfx e.1.1) = some content →
        ∃ m, process_language fs content e.1.2 e.2 size (sample (li0 + k)) = .ok m) →
      ∃ l, readLoop fs data_dir epfx size sample zs li0 = .ok l ∧
        l.length = zs.length ∧
        ∀ k e, zs.get? k = some e →
          ((l.get? k = some none) ↔ fs (embFilename data_dir epfx e.1.1) = none) := by
  intro zs
  induction zs with
  | nil =>
    intro li0 H
    exact ⟨[], rfl, rfl, by intro k e h; simp at h⟩
  | cons z rest ih =>
    intro li0 H
    obtain ⟨⟨ext, vocab_path⟩, vocab_size⟩ := z
    have Hrest : ∀ k e, rest.get? k = some e →
        ∀ content, fs (embFilename data_dir epfx e.1.1) = some content →
        ∃ m, process_language fs content e.1.2 e.2 size (sample ((li0 + 1) + k)) = .ok m := by
      intro k e hk content hc
      have hh := H (k + 1) e (by simpa using hk) content hc
      have harith : li0 + (k + 1) = (li0 + 1) + k := by omega
      rwa [harith] at hh
    obtain ⟨l, hl, hlen, hiff⟩ := ih (li0 + 1) Hrest
    cases hf : fs (embFilename data_dir epfx ext) with
    | none =>
      refine ⟨none :: l, ?_, by simp [hlen], ?_⟩
      · simp only [readLoop, hf, hl]
      · intro k e hk
        cases k with
        | zero =>
          have he : e = ((ext, vocab_path), vocab_size) :=
            (Option.some.inj hk).symm
          subst he
          simp [hf]
        | succ k2 =>
          simpa using hiff k2 e (by simpa using hk)
    | some content =>
      obtain ⟨m, hm⟩ :=
        H 0 ((ext, vocab_path), vocab_size) (by simp) content (by simpa using hf)
      have hm2 : process_language fs content vocab_path vocab_size size
          (sample li0) = .ok m := by simpa using hm
      refine ⟨some m :: l, ?_, by simp [hlen], ?_⟩
      · simp only [readLoop, hf, hm2, hl]
      · intro k e hk
        cases k with
        | zero =>
          have he : e = ((ext, vocab_path), vocab_size) :=
            (Option.some.inj hk).symm
          subst he
          simp [hf]
        | succ k2 =>
          simpa using hiff k2 e (by simpa using hk)

/-- C8: read_embeddings returns nothing when no embedding name part is
supplied; otherwise (when every language whose embedding file exists
processes successfully) it returns one entry per language in the order
source extensions then target extension, a missing embedding file yielding
the entry none without raising and without aborting the other languages. -/
theorem claim_C8 (fs : String → Option (List String)) (data_dir : String)
    (src_ext : List String) (trg_ext : String)
    (src_vocab_size trg_vocab_size : Nat) (src_vocab : List String)
    (trg_vocab : String) (embedding_pfx : Option String) (size : Nat)
    (sample : Nat → Nat → Nat → ℚ)
    (hlen : src_vocab.length = src_ext.length) :
    (pyTruthy embedding_pfx = false →
      read_embeddings fs data_dir src_ext trg_ext src_vocab_size trg_vocab_size
        src_vocab trg_vocab embedding_pfx size sample = .ok none) ∧
    (pyTruthy embedding_pfx = true →
      (∀ k e,
          (((src_ext ++ [trg_ext]).zip (src_vocab ++ [trg_vocab])).zip
            (List.replicate src_ext.length src_vocab_size ++ [trg_vocab_size])).get? k
            = some e →
          ∀ content, fs (embFilename data_dir (embedding_pfx.getD "") e.1.1) = some content →
          ∃ m, process_language fs content e.1.2 e.2 size (sample k) = .ok m) →
      ∃ l, read_embeddings fs data_dir src_ext trg_ext src_vocab_size trg_vocab_size
          src_vocab trg_vocab embedding_pfx size sample = .ok (some l) ∧
        l.length = src_ext.length + 1 ∧
        ∀ k ext, (src_ext ++ [trg_ext]).get? k = some ext →
          ((l.get? k = some none) ↔
            fs (embFilename data_dir (embedding_pfx.getD "") ext) = none)) := by
  constructor
  · intro h
    simp [read_embeddings, h]
  · intro h hproc
    have H0 : ∀ k e,
        (((src_ext ++ [trg_ext]).zip (src_vocab ++ [trg_vocab])).zip
          (List.replicate src_ext.length src_vocab_size ++ [trg_vocab_size])).get? k
          = some e →
        ∀ content,
          fs (embFilename data_dir (embedding_pfx.getD "") e.1.1) = some content →
        ∃ m, process_language fs content e.1.2 e.2 size
          ((fun li => sample li) (0 + k)) = .ok m := by
      intro k e hk content hc
      have h0 : 0 + k = k := Nat.zero_add k
      rw [h0]
      exact hproc k e hk content hc
    obtain ⟨l, hl, hlen2, hiff⟩ :=
      readLoop_spec fs data_dir (embedding_pfx.getD "") size sample
        (((src_ext ++ [trg_ext]).zip (src_vocab ++ [trg_vocab])).zip
          (List.replicate src_ext.length src_vocab_size ++ [trg_vocab_size])) 0 H0
    have hzlen :
        ((((src_ext ++ [trg_ext]).zip (src_vocab ++ [trg_vocab])).zip
          (List.replicate src_ext.length src_vocab_size ++ [trg_vocab_size]))).length
          = src_ext.length + 1 := by
      simp [List.length_zip, hlen]
    refine ⟨l, ?_, by rw [hlen2, hzlen], ?_⟩
    · simp only [read_embeddings, h, if_true, hl]
    · intro k ext hext
      have hk : k < (src_ext ++ [trg_ext]).length := by
        by_contra hge
        rw [List.get?_eq_none.mpr (by omega)] at hext
        cases hext
      have hvp : ∃ vp, (src_vocab ++ [trg_vocab]).get? k = some vp := by
        cases hv : (src_vocab ++ [trg_vocab]).get? k with
        | none =>
          have := List.get?_eq_none.mp hv
          simp at hk this
          omega
        | some vp => exact ⟨vp, rfl⟩
      obtain ⟨vp, hvp⟩ := hvp
      have hvs : ∃ vs, (List.replicate src_ext.length src_vocab_size
          ++ [trg_vocab_size]).get? k = some vs := by
        cases hv : (List.replicate src_ext.length src_vocab_size
            ++ [trg_vocab_size]).get? k with
        | none =>
          have := List.get?_eq_none.mp hv
          simp at hk this
          omega
        | some vs => exact ⟨vs, rfl⟩
      obtain ⟨vs, hvs⟩ := hvs
      have hz := zip_get?_of _ _ k (ext, vp) vs
        (zip_get?_of _ _ k ext vp hext hvp) hvs
      exact hiff k ((ext, vp), vs) hz

/-- Witness for C8: one source language with a missing embedding file and a
target language with an existing one. -/
theorem claim_C8_witness :
    ∃ l, read_embeddings
        (fun p => if p = "dd/emb.en" then some ["h 1"]
          else if p = "vt" then some ["t"] else none)
        "dd" ["fr"] "en" 1 1 ["vf"] "vt" (some "emb") 1
        (fun _ _ _ => 0) = .ok (some l) ∧
      l.length = (["fr"] : List String).length + 1 ∧
      ∀ k ext, ((["fr"] : List String) ++ ["en"]).get? k = some ext →
        ((l.get? k = some none) ↔
          (fun p => if p = "dd/emb.en" then some ["h 1"]
            else if p = "vt" then some ["t"] else none)
            (embFilename "dd" ((some "emb").getD "") ext) = none) := by
  refine (claim_C8
    (fun p => if p = "dd/emb.en" then some ["h 1"]
      else if p = "vt" then some ["t"] else none)
    "dd" ["fr"] "en" 1 1 ["vf"] "vt" (some "emb") 1
    (fun _ _ _ => 0) rfl).2 rfl ?_
  intro k e hk content hc
  match k with
  | 0 =>
    have he : e = (("fr", "vf"), 1) := (Option.some.inj hk).symm
    subst he
    have hfn : embFilename "dd" ((some "emb").getD "")
        ((("fr", "vf"), 1) : (String × String) × Nat).1.1 = "dd/emb.fr" := by decide
    rw [hfn] at hc
    simp at hc
  | 1 =>
    have he : e = (("en", "vt"), 1) := (Option.some.inj hk).symm
    subst he
    have hfn : embFilename "dd" ((some "emb").getD "")
        ((("en", "vt"), 1) : (String × String) × Nat).1.1 = "dd/emb.en" := by decide
    rw [hfn] at hc
    simp only [if_pos rfl] at hc
    have hcc : ["h 1"] = content := Option.some.inj hc
    subst hcc
    exact ⟨[[0]], by decide⟩
  | (k2 + 2) =>
    simp at hk

/-- The alignment loop: under the shape side conditions, it succeeds and the
final table holds, at every index, the row of the last entry carrying that
index, other rows being untouched. -/
theorem alignRows_spec (d : Dict (List ℚ)) (size : Nat) (sample : Nat → Nat → ℚ) :
    ∀ (entries : List (String × Nat)) (m : Mat),
      (∀ r ∈ m, r.length = size) →
      (∀ w j, (w, j) ∈ entries → j < m.length) →
      (∀ w j, (w, j) ∈ entries → (rowFor d sample size w j).length = size) →
      ∃ m2, alignRows d size sample entries m = .ok m2 ∧
        m2.length = m.length ∧
        (∀ r ∈ m2, r.length = size) ∧
        ∀ i, m2.get? i =
          match lastWordAt entries i with
          | some w2 => some (rowFor d sample size w2 i)
          | none => m.get? i := by
  intro entries
  induction entries with
  | nil =>
    intro m hm hidx hrow
    refine ⟨m, rfl, rfl, hm, ?_⟩
    intro i
    simp [lastWordAt]
  | cons p rest ih =>
    intro m hm hidx hrow
    obtain ⟨w, j⟩ := p
    have hj : j < m.length := hidx w j (List.mem_cons_self _ _)
    obtain ⟨row, hrowj⟩ : ∃ r, m.get? j = some r := by
      cases hr : m.get? j with
      | none =>
        have := List.get?_eq_none.mp hr
        omega
      | some r => exact ⟨r, rfl⟩
    have hrow0 : (rowFor d sample size w j).length = size :=
      hrow w j (List.mem_cons_self _ _)
    have hset : setRow m j (rowFor d sample size w j) =
        .ok (m.set j (rowFor d sample size w j)) := by
      have hrl : row.length = size := hm row (List.get?_mem hrowj)
      have hrowj2 : m[j]? = some row := by
        rw [← List.get?_eq_getElem?]
        exact hrowj
      simp [setRow, hrowj2, hrow0, hrl]
    have hm1 : ∀ r ∈ m.set j (rowFor d sample size w j), r.length = size := by
      intro r hr
      obtain ⟨i, hi⟩ := List.mem_iff_get?.mp hr
      by_cases hij : j = i
      · subst hij
        rw [List.get?_set_eq_of_lt _ hj] at hi
        cases hi
        exact hrow0
      · rw [List.get?_set_ne _ _ hij] at hi
        exact hm r (List.get?_mem hi)
    have hidx1 : ∀ w2 j2, (w2, j2) ∈ rest →
        j2 < (m.set j (rowFor d sample size w j)).length := by
      intro w2 j2 h2
      simpa using hidx w2 j2 (List.mem_cons_of_mem _ h2)
    have hrow1 : ∀ w2 j2, (w2, j2) ∈ rest →
        (rowFor d sample size w2 j2).length = size := by
      intro w2 j2 h2
      exact hrow w2 j2 (List.mem_cons_of_mem _ h2)
    obtain ⟨m2, hm2, hlen2, hall2, hget2⟩ :=
      ih (m.set j (rowFor d sample size w j)) hm1 hidx1 hrow1
    refine ⟨m2, ?_, by simpa using hlen2, hall2, ?_⟩
    · simp only [alignRows, hset, hm2]
    · intro i
      rw [hget2 i]
      simp only [lastWordAt]
      cases hlw : lastWordAt rest i with
      | some w2 => rfl
      | none =>
        by_cases hij : j = i
        · subst hij
          rw [if_pos rfl, List.get?_set_eq_of_lt _ hj]
        · rw [if_neg hij, List.get?_set_ne _ _ hij]

/-- C2: for an embedding file whose dictionary is read successfully with
vectors of the expected length, and a vocabulary file with V lines, the
per-language step of read_embeddings builds a table of V rows of length N;
each vocabulary token present in the embedding dictionary has its vector
copied verbatim to the row at its index, and each absent token gets the
uniformly sampled row there, whose entries all lie in the interval from
minus the square root of three to the square root of three. -/
theorem claim_C2 (fs : String → Option (List String)) (content : List String)
    (vocab_path : String) (size : Nat) (sample : Nat → Nat → ℚ)
    (d : Dict (List ℚ)) (vlines : List String) (V : Nat)
    (hd : read_embedding_file content size = .ok d)
    (hv : fs vocab_path = some vlines)
    (hV : (vlines.map pyStrip).length = V)
    (hdim : ∀ w v, dictGet d w = some v → v.length = size)
    (hs : ∀ i j, -Real.sqrt 3 ≤ ((sample i j : ℚ) : ℝ) ∧
      ((sample i j : ℚ) : ℝ) ≤ Real.sqrt 3) :
    ∃ m, process_language fs content vocab_path V size sample = .ok m ∧
      m.length = V ∧
      (∀ row ∈ m, row.length = size) ∧
      ∀ vocab rv, initialize_vocabulary fs vocab_path = .ok (vocab, rv) →
        ∀ tok idx, dictGet vocab tok = some idx →
          (∀ v, dictGet d tok = some v → m.get? idx = some v) ∧
          (dictGet d tok = none →
            m.get? idx = some (uniformRow sample idx size) ∧
            ∀ x ∈ uniformRow sample idx size,
              -Real.sqrt 3 ≤ (x : ℝ) ∧ (x : ℝ) ≤ Real.sqrt 3) := by
  have hiv := initialize_vocabulary_ok fs vocab_path vlines hv
  have hentry : ∀ w j,
      (w, j) ∈ dictOfList ((vlines.map pyStrip).enum.map (fun p => (p.2, p.1))) →
      dictGet (dictOfList ((vlines.map pyStrip).enum.map (fun p => (p.2, p.1)))) w
        = some j :=
    fun w j h => mem_dictGet _ _ _ (keysNodup_dictOfList _) h
  have hgetIdx : ∀ w j,
      dictGet (dictOfList ((vlines.map pyStrip).enum.map (fun p => (p.2, p.1)))) w
        = some j →
      j < (vlines.map pyStrip).length ∧ (vlines.map pyStrip).get? j = some w := by
    intro w j h
    rw [dictGet_vocabDict] at h
    obtain ⟨h1, h2, h3⟩ := lastIdxFrom_sound (vlines.map pyStrip) w 0 j h
    exact ⟨by omega, by simpa using h3⟩
  have hm0 : ∀ r ∈ npZeros V size, r.length = size := by
    intro r hr
    rw [List.eq_of_mem_replicate hr]
    simp
  have hidx : ∀ w j,
      (w, j) ∈ dictOfList ((vlines.map pyStrip).enum.map (fun p => (p.2, p.1))) →
      j < (npZeros V size).length := by
    intro w j h
    have := (hgetIdx w j (hentry w j h)).1
    simp only [npZeros, List.length_replicate]
    omega
  have hrow : ∀ w j,
      (w, j) ∈ dictOfList ((vlines.map pyStrip).enum.map (fun p => (p.2, p.1))) →
      (rowFor d sample size w j).length = size := by
    intro w j h
    unfold rowFor
    cases hw : dictGet d w with
    | some v => exact hdim w v hw
    | none => simp [uniformRow]
  obtain ⟨m2, hm2, hlen2, hall2, hget2⟩ :=
    alignRows_spec d size sample
      (dictOfList ((vlines.map pyStrip).enum.map (fun p => (p.2, p.1))))
      (npZeros V size) hm0 hidx hrow
  refine ⟨m2, ?_, ?_, hall2, ?_⟩
  · simp only [process_language, hd, hiv, hm2]
  · rw [hlen2]
    simp [npZeros]
  · intro vocab rv hiv2 tok idx hg
    rw [hiv] at hiv2
    injection hiv2 with hpair
    injection hpair with hvv hrr
    have hg2 : dictGet (dictOfList ((vlines.map pyStrip).enum.map
        (fun p => (p.2, p.1)))) tok = some idx := by rw [← hvv] at hg; exact hg
    have hmem : (tok, idx) ∈ dictOfList ((vlines.map pyStrip).enum.map
        (fun p => (p.2, p.1))) := dictGet_mem _ _ _ hg2
    have hlwSome := lastWordAt_complete _ tok idx hmem
    obtain ⟨w2, hw2⟩ := Option.isSome_iff_exists.mp hlwSome
    have hw2mem := lastWordAt_sound _ idx w2 hw2
    have hw2get := hentry w2 idx hw2mem
    have htok : w2 = tok := by
      have e1 := (hgetIdx w2 idx hw2get).2
      have e2 := (hgetIdx tok idx hg2).2
      rw [e1] at e2
      exact Option.some.inj e2
    subst htok
    have hfinal : m2.get? idx = some (rowFor d sample size w2 idx) := by
      rw [hget2 idx, hw2]
    constructor
    · intro v hdv
      rw [hfinal]
      unfold rowFor
      rw [hdv]
    · intro hdnone
      refine ⟨by rw [hfinal]; unfold rowFor; rw [hdnone], ?_⟩
      intro x hx
      obtain ⟨jj, hjj, hxe⟩ := List.mem_map.mp hx
      rw [← hxe]
      exact hs idx jj

/-- Witness for C2: a two-token vocabulary, one token present in the
embedding file and one absent, with the constant-zero sampler. -/
theorem claim_C2_witness :
    ∃ m, process_language (fun _ => some ["t", "u"]) ["h 1", "t 0"] "voc" 2 1
        (fun _ _ => 0) = .ok m ∧
      m.length = 2 ∧
      (∀ row ∈ m, row.length = 1) ∧
      ∀ vocab rv,
        initialize_vocabulary (fun _ => some ["t", "u"]) "voc" = .ok (vocab, rv) →
        ∀ tok idx, dictGet vocab tok = some idx →
          (∀ v, dictGet [("t", ([0] : List ℚ))] tok = some v → m.get? idx = some v) ∧
          (dictGet [("t", ([0] : List ℚ))] tok = none →
            m.get? idx = some (uniformRow (fun _ _ => 0) idx 1) ∧
            ∀ x ∈ uniformRow (fun _ _ => 0) idx 1,
              -Real.sqrt 3 ≤ (x : ℝ) ∧ (x : ℝ) ≤ Real.sqrt 3) :=
  claim_C2 (fun _ => some ["t", "u"]) ["h 1", "t 0"] "voc" 1 (fun _ _ => 0)
    [("t", [0])] ["t", "u"] 2
    (by decide) rfl (by decide)
    (by
      intro w v h
      simp only [dictGet] at h
      split at h
      · cases h
        decide
      · cases h)
    (fun i j => by constructor <;> simp [Real.sqrt_nonneg])

end DataUtils
